import Mathlib

/-!
Verification of the word-count plugin (src/main.ts).

The pure text-processing functions of the plugin are embedded over
`List Char` / `String`:

* `countWords` embeds `WordCountPlugin.countWords` (main.ts lines 124-137).
* `removeFrontMatter` embeds `WordCountPlugin.removeFrontMatter`
  (main.ts lines 139-143), including the exact backtracking semantics of
  the JavaScript regex `/^---\s*\n(?:.*\n)*?---\s*\n/m` under `replace`
  (first match only, `^` anchored at every line start because of the
  `m` flag, `.` excluding the four JavaScript line terminators).
* `getWordFrequency` embeds `WordCountPlugin.getWordFrequency`
  (main.ts lines 167-192).
* `presentWords` embeds the filter-and-sort presentation step of
  `WordFrequencyModal.onOpen` (main.ts lines 218-221).
* `updateWordCount` embeds the pure result of
  `WordCountPlugin.updateWordCount` (main.ts lines 93-122): the text
  written to the status bar, as a function of the active view state.
-/

/-- Settings record of the plugin (main.ts lines 14-17). -/
structure WordCountPluginSettings where
  countOnlyActualWords : Bool
  excludeFrontmatter : Bool
  deriving DecidableEq, Repr

/-- Default settings (main.ts lines 19-22): both flags true. -/
def DEFAULT_SETTINGS : WordCountPluginSettings :=
  { countOnlyActualWords := true, excludeFrontmatter := true }

/-- The character class `\s` of JavaScript regular expressions:
tab, line feed, vertical tab, form feed, carriage return, space, NBSP,
Ogham space mark, the U+2000..U+200A spaces, line separator, paragraph
separator, narrow NBSP, medium mathematical space, ideographic space, BOM. -/
def isJsWs (c : Char) : Bool :=
  c == '\t' || c == '\n' || c == '\u000B' || c == '\u000C' || c == '\r' ||
  c == ' ' || c == '\u00A0' || c == '\u1680' ||
  (decide ('\u2000' ≤ c) && decide (c ≤ '\u200A')) ||
  c == '\u2028' || c == '\u2029' || c == '\u202F' || c == '\u205F' ||
  c == '\u3000' || c == '\uFEFF'

/-- The four JavaScript line terminators: these are what the `m` flag
anchors `^` after and what `.` refuses to match. -/
def isLineTerm (c : Char) : Bool :=
  c == '\n' || c == '\r' || c == '\u2028' || c == '\u2029'

/-- One character of the class `[a-zA-ZÀ-ÿ]` used by `countWords` and
`getWordFrequency` (main.ts lines 127 and 175). -/
def isLatinLetter (c : Char) : Bool :=
  (decide ('a' ≤ c) && decide (c ≤ 'z')) ||
  (decide ('A' ≤ c) && decide (c ≤ 'Z')) ||
  (decide ('À' ≤ c) && decide (c ≤ 'ÿ'))

/-- The test `hasLetter.test(word)` of main.ts line 130: the token
contains at least one character of the class `[a-zA-ZÀ-ÿ]`. -/
def hasLetter (w : List Char) : Bool :=
  w.any isLatinLetter

/-- Worker for `splitWs`. The Bool argument records whether the previous
character was part of a whitespace separator run (so that a run of
whitespace acts as a single separator), `acc` holds the reversed current
token. -/
def splitWsAux : List Char → Bool → List Char → List (List Char)
  | [], skipping, acc => if skipping then [[]] else [acc.reverse]
  | c :: cs, skipping, acc =>
    if skipping then
      if isJsWs c then splitWsAux cs true [] else splitWsAux cs false [c]
    else
      if isJsWs c then acc.reverse :: splitWsAux cs true []
      else splitWsAux cs false (c :: acc)

/-- JavaScript `text.split(/\s+/)` (main.ts lines 129 and 134): the
pieces between maximal whitespace runs, including an empty piece at
either end when the text starts or ends with whitespace, and `[""]` for
the empty text. -/
def splitWs (s : List Char) : List (List Char) :=
  splitWsAux s false []

/-- `WordCountPlugin.countWords` (main.ts lines 124-137): split the text
on whitespace runs, then count the tokens containing a letter when
`countOnlyActualWords` is set, and the non-empty tokens otherwise. -/
def countWords (settings : WordCountPluginSettings) (text : String) : Nat :=
  if settings.countOnlyActualWords then
    ((splitWs text.data).filter hasLetter).length
  else
    ((splitWs text.data).filter (fun w => decide (0 < w.length))).length

/-- Worker for `specTokens`; `acc` holds the reversed token in progress. -/
def specTokensAux : List Char → List Char → List (List Char)
  | [], acc => if acc = [] then [] else [acc.reverse]
  | c :: cs, acc =>
    if isJsWs c then
      (if acc = [] then [] else [acc.reverse]) ++ specTokensAux cs []
    else specTokensAux cs (c :: acc)

/-- Modelled from the spec text for comparison with the code: the token
sequence of a text, namely its maximal runs of non-whitespace characters
in order, with no empty tokens. -/
def specTokens (s : List Char) : List (List Char) :=
  specTokensAux s []

/-- All ways for the regex fragment `\s*\n` to consume a prefix of `s`,
as the list of corresponding suffixes of `s`: one entry per newline
inside the maximal leading whitespace run, ordered longest consumption
first, matching the backtracking order of the greedy `\s*`. -/
def wsNlSplits : List Char → List (List Char)
  | [] => []
  | c :: cs =>
    if isJsWs c then wsNlSplits cs ++ (if c = '\n' then [cs] else [])
    else []

/-- The regex fragment `---\s*\n` at the end of the frontmatter pattern:
three dashes, then (greedily) whitespace through a final newline.
Nothing follows it in the pattern, so only the greediest consumption
(the head of `wsNlSplits`) is relevant. Returns the suffix after the
consumed part. -/
def closeMatch (s : List Char) : Option (List Char) :=
  match s with
  | c1 :: c2 :: c3 :: xs =>
    if c1 = '-' ∧ c2 = '-' ∧ c3 = '-' then (wsNlSplits xs).head? else none
  | _ => none

/-- The regex fragment `(?:.*\n)`: one full line. `.` matches anything
but a line terminator, so the fragment consumes the maximal terminator-free
prefix, which must then be followed by `\n` exactly. -/
def dropLine : List Char → Option (List Char)
  | [] => none
  | c :: cs =>
    if isLineTerm c then (if c = '\n' then some cs else none)
    else dropLine cs

/-- Fuelled worker for `matchTail`: the regex fragment
`(?:.*\n)*?---\s*\n`. The group is lazy, so zero iterations
(an immediate `closeMatch`) are tried first, then one more line is
consumed and the search repeats. -/
def matchTailF : Nat → List Char → Option (List Char)
  | 0, _ => none
  | fuel + 1, s =>
    match closeMatch s with
    | some r => some r
    | none =>
      match dropLine s with
      | some z => matchTailF fuel z
      | none => none

/-- The regex fragment `(?:.*\n)*?---\s*\n` at suffix `s`: the suffix
left after it, if it matches. Each step consumes at least one character,
so `s.length + 1` fuel always suffices. -/
def matchTail (s : List Char) : Option (List Char) :=
  matchTailF (s.length + 1) s

/-- First success of `f` over a list, in order: the backtracking search
over the alternatives of an earlier choice point. -/
def firstSome (f : List Char → Option (List Char)) : List (List Char) → Option (List Char)
  | [] => none
  | a :: as =>
    match f a with
    | some b => some b
    | none => firstSome f as

/-- The whole regex `---\s*\n(?:.*\n)*?---\s*\n` at a position where `^`
holds: three dashes, then each candidate consumption of the greedy
`\s*\n` is tried in backtracking order against the rest of the pattern.
Returns the suffix after the full match. -/
def matchFrontAt (s : List Char) : Option (List Char) :=
  match s with
  | c1 :: c2 :: c3 :: xs =>
    if c1 = '-' ∧ c2 = '-' ∧ c3 = '-' then firstSome matchTail (wsNlSplits xs)
    else none
  | _ => none

/-- Split a text at its first line terminator: the terminator-free
prefix, the terminator, and the rest. `none` when no terminator occurs.
Used to advance the match position to the next place where the
multiline `^` can hold. -/
def splitTerm : List Char → Option (List Char × Char × List Char)
  | [] => none
  | c :: cs =>
    if isLineTerm c then some ([], c, cs)
    else
      match splitTerm cs with
      | some (p, t, z) => some (c :: p, t, z)
      | none => none

/-- Fuelled worker for `fmRun`: `replace` with a non-global regex. Try
the pattern at the current `^` position; on failure keep the text up to
and including the next line terminator and continue at the position
after it; the text is unchanged when no position matches. -/
def fmRunF : Nat → List Char → List Char
  | 0, s => s
  | fuel + 1, s =>
    match matchFrontAt s with
    | some r => r
    | none =>
      match splitTerm s with
      | some (p, t, z) => p ++ t :: fmRunF fuel z
      | none => s

/-- `text.replace(/^---\s*\n(?:.*\n)*?---\s*\n/m, "")` on character
lists: remove the first match of the pattern, scanning the `^` positions
(start of text, and after every line terminator) left to right. -/
def fmRun (s : List Char) : List Char :=
  fmRunF (s.length + 1) s

/-- `WordCountPlugin.removeFrontMatter` (main.ts lines 139-143). -/
def removeFrontMatter (text : String) : String :=
  ⟨fmRun text.data⟩

/-- JavaScript `String.prototype.toLowerCase`, restricted to the Basic
Latin and Latin-1 range that the claims exercise: the uppercase letters
A-Z and À-Þ (excluding the multiplication sign ×) move down by 32 code
points; every other character in this range is returned unchanged, and
characters outside the range are modelled as unchanged. -/
def jsToLower (c : Char) : Char :=
  if ('A' ≤ c ∧ c ≤ 'Z') ∨ (('À' ≤ c ∧ c ≤ 'Þ') ∧ c ≠ '×') then
    Char.ofNat (c.toNat + 32)
  else c

/-- One step of `wordFrequency[w] = (wordFrequency[w] || 0) + 1`
(main.ts lines 187-188) on an insertion-ordered association list: an
existing key is incremented in place, a new key is appended. -/
def bump : List (String × Nat) → String → List (String × Nat)
  | [], k => [(k, 1)]
  | (k', v) :: rest, k =>
    if k' = k then (k', v + 1) :: rest else (k', v) :: bump rest k

/-- `WordCountPlugin.getWordFrequency` (main.ts lines 167-192): select
the tokens exactly as `countWords` does, lowercase each, and accumulate
per-token counts in insertion order. -/
def getWordFrequency (settings : WordCountPluginSettings) (text : String) :
    List (String × Nat) :=
  let words : List (List Char) :=
    if settings.countOnlyActualWords then (splitWs text.data).filter hasLetter
    else (splitWs text.data).filter (fun w => decide (0 < w.length))
  words.foldl (fun m w => bump m ⟨w.map jsToLower⟩) []

/-- Stable insertion of an entry into a list sorted by descending count:
the entry goes before the first strictly smaller count, after equal
counts already present. -/
def insertByCount (p : String × Nat) : List (String × Nat) → List (String × Nat)
  | [] => [p]
  | q :: qs => if p.2 < q.2 then q :: insertByCount p qs else p :: q :: qs

/-- Stable sort by descending count, the semantics of
`.sort((a, b) => b[1] - a[1])` on an array of `(word, count)` pairs. -/
def sortByCountDesc (l : List (String × Nat)) : List (String × Nat) :=
  l.foldr insertByCount []

/-- The presentation step of `WordFrequencyModal.onOpen` (main.ts lines
218-221): keep the entries with count above one and sort them by
descending count. -/
def presentWords (freq : List (String × Nat)) : List (String × Nat) :=
  sortByCountDesc (freq.filter (fun p => decide (1 < p.2)))

/-- Sum of the counts of a frequency table. -/
def sumCounts (m : List (String × Nat)) : Nat :=
  (m.map (fun p => p.2)).sum

/-- JavaScript `String.prototype.trim` on character lists: strip the
JavaScript whitespace characters from both ends. -/
def jsTrim (s : List Char) : List Char :=
  ((s.dropWhile isJsWs).reverse.dropWhile isJsWs).reverse

/-- The data `updateWordCount` reads from the active markdown view:
`editor.getSelection()` and `editor.getValue()`. -/
structure EditorView where
  selection : String
  fullText : String

/-- The status-bar text computed by `WordCountPlugin.updateWordCount`
(main.ts lines 93-122): a placeholder without an active view; with one,
the count of the selection when it is non-empty and has non-whitespace
content, otherwise the count of the full document with frontmatter
removed when `excludeFrontmatter` is set. -/
def updateWordCount (settings : WordCountPluginSettings)
    (view : Option EditorView) : String :=
  match view with
  | none => "No editor"
  | some v =>
    if v.selection ≠ "" ∧ 0 < (jsTrim v.selection.data).length then
      toString (countWords settings v.selection) ++ " words"
    else
      let text :=
        if settings.excludeFrontmatter then removeFrontMatter v.fullText
        else v.fullText
      toString (countWords settings text) ++ " words"

/-- A line (newline excluded) that the closing regex fragment
`---\s*\n` accepts: three dashes followed by whitespace only. -/
def isCloseLine (b : List Char) : Bool :=
  match b with
  | c1 :: c2 :: c3 :: xs => c1 == '-' && c2 == '-' && c3 == '-' && xs.all isJsWs
  | _ => false

/-- A frontmatter body line in the structured form of the amended claim
C6: it contains a non-whitespace character, no line terminator, and is
not itself a closing delimiter line. -/
def goodLine (b : List Char) : Bool :=
  b.any (fun c => !isJsWs c) && b.all (fun c => !isLineTerm c) && !isCloseLine b

/-- Concatenation of lines, a newline after each. -/
def linesJoin : List (List Char) → List Char
  | [] => []
  | b :: bs => b ++ '\n' :: linesJoin bs

/-- True when the text is empty or starts with a non-whitespace
character. -/
def headNotWs : List Char → Bool
  | [] => true
  | c :: _ => !isJsWs c

/-- Split a text into its newline-separated lines (one more line than
newlines). -/
def splitNl : List Char → List (List Char)
  | [] => [[]]
  | c :: cs =>
    if c = '\n' then [] :: splitNl cs
    else
      match splitNl cs with
      | l :: ls => (c :: l) :: ls
      | [] => [[c]]

/-- Rejoin lines with single newlines between them. -/
def joinNl : List (List Char) → List Char
  | [] => []
  | [l] => l
  | l :: ls => l ++ '\n' :: joinNl ls

/-- Drop lines up to and including the first closing `---` line;
`none` when there is no such line. -/
def dropThroughClose : List (List Char) → Option (List (List Char))
  | [] => none
  | l :: ls => if isCloseLine l then some ls else dropThroughClose ls

/-- Modelled from the words of claim C6, for comparison with the code:
split the text into lines; when the first line consists solely of `---`
with optional trailing whitespace and some later line does too, remove
everything up to and including the first such later line, keeping the
rest verbatim. -/
def claimedRemoveLeading (t : String) : String :=
  match splitNl t.data with
  | [] => t
  | l0 :: rest =>
    if isCloseLine l0 then
      match dropThroughClose rest with
      | some remaining => ⟨joinNl remaining⟩
      | none => t
    else t

/-- Claim C1: the code violates it. On a text that does not begin with a
frontmatter block, `removeFrontMatter` still removes a block that starts
further down, because the `m` flag of the regex anchors `^` at every
line start; the text is not returned unchanged. -/
theorem removeFrontMatter_midtext_match :
    removeFrontMatter ("intro\n---\na\n---\nrest") = "intro\nrest" ∧
    removeFrontMatter ("intro\n---\na\n---\nrest") ≠ "intro\n---\na\n---\nrest" := by
  decide

/-- Claim C2 counterexample: `removeFrontMatter` is not idempotent. On a
text with two consecutive frontmatter blocks one application removes
only the first, and a second application removes another. -/
theorem removeFrontMatter_not_idempotent :
    removeFrontMatter (removeFrontMatter ("---\na\n---\n---\nb\n---\nx")) ≠
      removeFrontMatter ("---\na\n---\n---\nb\n---\nx") := by
  decide

/-- Claim C4: `getWordFrequency` lowercases tokens before aggregation so
differently cased occurrences merge, and the presentation keeps only
counts above one, sorted by descending count. -/
theorem getWordFrequency_case_merge :
    getWordFrequency ⟨true, true⟩ ("The the THE cat") = [("the", 3), ("cat", 1)] ∧
    presentWords (getWordFrequency ⟨true, true⟩ ("The the THE cat")) = [("the", 3)] := by
  decide

/-- Claim C6 counterexample: the code does not remove exactly up to and
including the first closing `---` line; the closing `---\s*\n` also
absorbs immediately following whitespace through its last newline, here
the blank line after the closing delimiter. -/
theorem removeFrontMatter_absorbs_whitespace :
    removeFrontMatter ("---\na\n---\n\nbody") = "body" ∧
    claimedRemoveLeading ("---\na\n---\n\nbody") = "\nbody" ∧
    removeFrontMatter ("---\na\n---\n\nbody") ≠
      claimedRemoveLeading ("---\na\n---\n\nbody") := by
  decide

/-- Claim C10: the class `[a-zA-ZÀ-ÿ]` contains the multiplication and
division signs, so `countWords` with the actual-words flag counts a
token consisting of such a sign alone, and `getWordFrequency` keeps it
as an entry. -/
theorem countWords_counts_times_sign :
    ('À' ≤ '×' ∧ '×' ≤ 'ÿ') ∧ ('À' ≤ '÷' ∧ '÷' ≤ 'ÿ') ∧
    countWords ⟨true, true⟩ ("×") = 1 ∧ countWords ⟨true, true⟩ ("÷") = 1 ∧
    getWordFrequency ⟨true, true⟩ ("×") = [("×", 1)] := by
  decide

theorem splitWsAux_filter_eq (s : List Char) :
    (∀ acc, (splitWsAux s false acc).filter (fun w => decide (0 < w.length)) =
      specTokensAux s acc) ∧
    ((splitWsAux s true []).filter (fun w => decide (0 < w.length)) =
      specTokensAux s []) := by
  induction s with
  | nil =>
    refine ⟨fun acc => ?_, by simp [splitWsAux, specTokensAux]⟩
    cases acc with
    | nil => simp [splitWsAux, specTokensAux]
    | cons a as => simp [splitWsAux, specTokensAux]
  | cons c cs ih =>
    by_cases hc : isJsWs c
    · refine ⟨fun acc => ?_, ?_⟩
      · cases acc with
        | nil => simp [splitWsAux, specTokensAux, hc, ih.2]
        | cons a as => simp [splitWsAux, specTokensAux, hc, ih.2]
      · simp [splitWsAux, specTokensAux, hc, ih.2]
    · refine ⟨fun acc => ?_, ?_⟩
      · simp [splitWsAux, specTokensAux, hc, ih.1 (c :: acc)]
      · simp [splitWsAux, specTokensAux, hc, ih.1 [c]]

theorem filter_hasLetter_through_nonNil (l : List (List Char)) :
    l.filter hasLetter = (l.filter (fun w => decide (0 < w.length))).filter hasLetter := by
  induction l with
  | nil => rfl
  | cons w ws ih =>
    cases w with
    | nil => simpa [List.filter_cons, hasLetter] using ih
    | cons a as => by_cases h : hasLetter (a :: as) <;> simp [List.filter_cons, h, ih]

theorem countWords_true_eq (e : Bool) (t : String) :
    countWords ⟨true, e⟩ t = ((specTokens t.data).filter hasLetter).length := by
  show ((splitWs t.data).filter hasLetter).length = _
  rw [filter_hasLetter_through_nonNil, splitWs, (splitWsAux_filter_eq t.data).1 []]
  rfl

theorem countWords_false_eq (e : Bool) (t : String) :
    countWords ⟨false, e⟩ t = (specTokens t.data).length := by
  show ((splitWs t.data).filter (fun w => decide (0 < w.length))).length = _
  rw [splitWs, (splitWsAux_filter_eq t.data).1 []]
  rfl

/-- Claim C3: `countWords` splits on runs of whitespace; with the
actual-words flag it counts exactly the tokens containing a letter of
the class `[a-zA-ZÀ-ÿ]`, without it every non-empty token; digit-only
tokens count 0 versus 2, accented words count. -/
theorem countWords_tokenization :
    (∀ (e : Bool) (t : String),
        countWords ⟨true, e⟩ t = ((specTokens t.data).filter hasLetter).length ∧
        countWords ⟨false, e⟩ t = (specTokens t.data).length) ∧
    countWords ⟨true, true⟩ ("123 456") = 0 ∧
    countWords ⟨false, true⟩ ("123 456") = 2 ∧
    countWords ⟨true, true⟩ ("café naïve") = 2 :=
  ⟨fun e t => ⟨countWords_true_eq e t, countWords_false_eq e t⟩,
   by decide, by decide, by decide⟩

/-- Claim C5: the actual-words filter only removes tokens, so the count
with the flag set never exceeds the count without it. -/
theorem countWords_filter_le (e1 e2 : Bool) (t : String) :
    countWords ⟨true, e1⟩ t ≤ countWords ⟨false, e2⟩ t := by
  rw [countWords_true_eq, countWords_false_eq]
  exact List.length_filter_le _ _

theorem specTokensAux_all_ws : ∀ s : List Char, s.all isJsWs = true →
    specTokensAux s [] = [] := by
  intro s
  induction s with
  | nil => intro _; rfl
  | cons c cs ih =>
    intro h
    rw [List.all_cons, Bool.and_eq_true] at h
    simp [specTokensAux, h.1, ih h.2]

/-- Claim C7: `countWords` is total, and on the empty text and every
whitespace-only text it returns 0 for either flag value. -/
theorem countWords_whitespace_zero (flag e : Bool) (t : String)
    (h : t.data.all isJsWs = true) : countWords ⟨flag, e⟩ t = 0 := by
  cases flag
  · rw [countWords_false_eq]
    simp [specTokens, specTokensAux_all_ws _ h]
  · rw [countWords_true_eq]
    simp [specTokens, specTokensAux_all_ws _ h]

/-- Witness for claim C7 at a whitespace-only text and the empty text. -/
theorem countWords_whitespace_zero_witness :
    ((" \t  ").data.all isJsWs = true) ∧
    countWords ⟨true, true⟩ (" \t  ") = 0 ∧
    countWords ⟨false, false⟩ ("") = 0 :=
  ⟨by decide, countWords_whitespace_zero true true (" \t  ") (by decide),
   countWords_whitespace_zero false false ("") (by decide)⟩

theorem sumCounts_bump (m : List (String × Nat)) (k : String) :
    sumCounts (bump m k) = sumCounts m + 1 := by
  induction m with
  | nil => rfl
  | cons p rest ih =>
    obtain ⟨k', v⟩ := p
    by_cases h : k' = k <;> simp [bump, h, sumCounts] at * <;> omega

theorem sumCounts_foldl_bump (ws : List (List Char)) :
    ∀ m : List (String × Nat),
      sumCounts (ws.foldl (fun m w => bump m ⟨w.map jsToLower⟩) m) =
        sumCounts m + ws.length := by
  induction ws with
  | nil => intro m; simp
  | cons w ws ih =>
    intro m
    rw [List.foldl_cons, ih, sumCounts_bump, List.length_cons]
    omega

theorem sumCounts_freq_fold (ws : List (List Char)) :
    sumCounts (ws.foldl (fun m w => bump m ⟨w.map jsToLower⟩) []) = ws.length := by
  rw [sumCounts_foldl_bump]
  simp [sumCounts]

/-- Claim C9: `getWordFrequency` and `countWords` select the same tokens,
so for every text and either flag value the counts in the frequency
table sum to the word count. -/
theorem getWordFrequency_sum_eq_countWords (s : WordCountPluginSettings) (t : String) :
    sumCounts (getWordFrequency s t) = countWords s t := by
  obtain ⟨flag, e⟩ := s
  cases flag
  · exact sumCounts_freq_fold ((splitWs t.data).filter (fun w => decide (0 < w.length)))
  · exact sumCounts_freq_fold ((splitWs t.data).filter hasLetter)

/-- Claim C8: whenever a non-empty selection with non-whitespace content
exists, the displayed count is computed from the selection text alone:
`removeFrontMatter` is never applied on that path, and the full document
text does not influence the result at all, for any settings. -/
theorem updateWordCount_selection_path (s : WordCountPluginSettings)
    (v : EditorView) (ft : String)
    (h1 : v.selection ≠ "") (h2 : 0 < (jsTrim v.selection.data).length) :
    updateWordCount s (some v) = toString (countWords s v.selection) ++ " words" ∧
    updateWordCount s (some ⟨v.selection, ft⟩) = updateWordCount s (some v) := by
  constructor
  · show (if v.selection ≠ "" ∧ 0 < (jsTrim v.selection.data).length then _ else _) = _
    rw [if_pos ⟨h1, h2⟩]
  · show (if v.selection ≠ "" ∧ 0 < (jsTrim v.selection.data).length then _ else _) =
      (if v.selection ≠ "" ∧ 0 < (jsTrim v.selection.data).length then _ else _)
    rw [if_pos ⟨h1, h2⟩, if_pos ⟨h1, h2⟩]

/-- Witness for claim C8: a selection that itself contains a
`---`-delimited block, with frontmatter exclusion enabled; the result
counts the raw selection (the delimiter lines included) and ignores the
document text. -/
theorem updateWordCount_selection_path_witness :
    (("---\na\n---\nb" : String) ≠ "" ∧ 0 < (jsTrim ("---\na\n---\nb" : String).data).length) ∧
    updateWordCount ⟨true, true⟩ (some ⟨"---\na\n---\nb", "doc one"⟩) =
      toString (countWords ⟨true, true⟩ ("---\na\n---\nb")) ++ " words" ∧
    updateWordCount ⟨true, true⟩ (some ⟨"---\na\n---\nb", "doc two"⟩) =
      updateWordCount ⟨true, true⟩ (some ⟨"---\na\n---\nb", "doc one"⟩) :=
  ⟨⟨by decide, by decide⟩,
   (updateWordCount_selection_path ⟨true, true⟩ ⟨"---\na\n---\nb", "doc one"⟩
      "doc two" (by decide) (by decide)).1,
   (updateWordCount_selection_path ⟨true, true⟩ ⟨"---\na\n---\nb", "doc one"⟩
      "doc two" (by decide) (by decide)).2⟩

theorem wsNlSplits_length : ∀ (s : List Char), ∀ r ∈ wsNlSplits s, r.length < s.length := by
  intro s
  induction s with
  | nil => intro r hr; simp [wsNlSplits] at hr
  | cons c cs ih =>
    intro r hr
    by_cases hc : isJsWs c
    · rw [wsNlSplits, if_pos hc] at hr
      rcases List.mem_append.mp hr with h | h
      · have := ih r h
        simp only [List.length_cons]
        omega
      · by_cases hn : c = '\n'
        · rw [if_pos hn] at h
          rw [List.mem_singleton] at h
          subst h
          simp
        · rw [if_neg hn] at h
          simp at h
    · rw [wsNlSplits, if_neg hc] at hr
      simp at hr

theorem closeMatch_length (s r : List Char) (h : closeMatch s = some r) :
    r.length < s.length := by
  rcases s with _ | ⟨c1, _ | ⟨c2, _ | ⟨c3, xs⟩⟩⟩ <;> simp [closeMatch] at h
  rcases h with ⟨hd, h⟩
  rcases hw : wsNlSplits xs with _ | ⟨a, as⟩
  · rw [hw] at h; simp at h
  · rw [hw] at h
    simp at h
    subst h
    have := wsNlSplits_length xs a (by rw [hw]; exact List.mem_cons_self a as)
    simp only [List.length_cons]
    omega

theorem dropLine_length : ∀ (s z : List Char), dropLine s = some z → z.length < s.length := by
  intro s
  induction s with
  | nil => intro z h; simp [dropLine] at h
  | cons c cs ih =>
    intro z h
    rw [dropLine] at h
    by_cases ht : isLineTerm c
    · rw [if_pos ht] at h
      by_cases hn : c = '\n'
      · rw [if_pos hn] at h
        cases h
        simp
      · rw [if_neg hn] at h
        cases h
    · rw [if_neg ht] at h
      have := ih z h
      simp only [List.length_cons]
      omega

theorem matchTailF_length : ∀ (fuel : Nat) (s r : List Char),
    matchTailF fuel s = some r → r.length < s.length := by
  intro fuel
  induction fuel with
  | zero => intro s r h; simp [matchTailF] at h
  | succ fuel ih =>
    intro s r h
    rw [matchTailF] at h
    cases hc : closeMatch s with
    | some q =>
      rw [hc] at h
      cases h
      exact closeMatch_length s r hc
    | none =>
      rw [hc] at h
      cases hd : dropLine s with
      | some z =>
        rw [hd] at h
        have h1 := ih z r h
        have h2 := dropLine_length s z hd
        omega
      | none => rw [hd] at h; cases h

theorem matchTail_length (s r : List Char) (h : matchTail s = some r) :
    r.length < s.length :=
  matchTailF_length (s.length + 1) s r h

theorem firstSome_mem : ∀ (f : List Char → Option (List Char)) (l : List (List Char))
    (r : List Char), firstSome f l = some r → ∃ a ∈ l, f a = some r := by
  intro f l
  induction l with
  | nil => intro r h; simp [firstSome] at h
  | cons a as ih =>
    intro r h
    rw [firstSome] at h
    cases hf : f a with
    | some b =>
      rw [hf] at h
      cases h
      exact ⟨a, List.mem_cons_self a as, hf⟩
    | none =>
      rw [hf] at h
      obtain ⟨x, hx, hfx⟩ := ih r h
      exact ⟨x, List.mem_cons_of_mem a hx, hfx⟩

theorem matchFrontAt_length (s r : List Char) (h : matchFrontAt s = some r) :
    r.length < s.length := by
  rcases s with _ | ⟨c1, _ | ⟨c2, _ | ⟨c3, xs⟩⟩⟩ <;> simp [matchFrontAt] at h
  rcases h with ⟨hd, h⟩
  obtain ⟨a, ha, hfa⟩ := firstSome_mem matchTail (wsNlSplits xs) r h
  have h1 := matchTail_length a r hfa
  have h2 := wsNlSplits_length xs a ha
  simp only [List.length_cons]
  omega

theorem splitTerm_spec : ∀ (s p : List Char) (t : Char) (z : List Char),
    splitTerm s = some (p, t, z) → s = p ++ t :: z := by
  intro s
  induction s with
  | nil => intro p t z h; simp [splitTerm] at h
  | cons c cs ih =>
    intro p t z h
    rw [splitTerm] at h
    by_cases ht : isLineTerm c
    · rw [if_pos ht] at h
      cases h
      rfl
    · rw [if_neg ht] at h
      cases hs : splitTerm cs with
      | some ptz =>
        obtain ⟨p', t2, z2⟩ := ptz
        rw [hs] at h
        simp only [Option.some.injEq, Prod.mk.injEq] at h
        obtain ⟨hp, ht2, hz2⟩ := h
        rw [← hp, ← ht2, ← hz2, ih p' t2 z2 hs, List.cons_append]
      | none => rw [hs] at h; cases h

theorem fmRunF_fixed_or_shrinks : ∀ (fuel : Nat) (s : List Char),
    fmRunF fuel s = s ∨ (fmRunF fuel s).length < s.length := by
  intro fuel
  induction fuel with
  | zero => intro s; left; rfl
  | succ fuel ih =>
    intro s
    rw [fmRunF]
    cases hm : matchFrontAt s with
    | some r =>
      right
      exact matchFrontAt_length s r hm
    | none =>
      cases hs : splitTerm s with
      | some ptz =>
        obtain ⟨p, t, z⟩ := ptz
        have heq := splitTerm_spec s p t z hs
        rcases ih z with h | h
        · left
          show p ++ t :: fmRunF fuel z = s
          rw [h]
          exact heq.symm
        · right
          show (p ++ t :: fmRunF fuel z).length < s.length
          rw [heq]
          simp only [List.length_append, List.length_cons]
          omega
      | none => left; rfl

/-- Claim C2 amended: `removeFrontMatter` removes at most one block per
application, so it is not idempotent in general; instead every
application either returns the text unchanged or returns a strictly
shorter text, so iterating it reaches a fixed point. -/
theorem removeFrontMatter_fixed_or_shrinks (t : String) :
    removeFrontMatter t = t ∨ (removeFrontMatter t).length < t.length := by
  rcases fmRunF_fixed_or_shrinks (t.data.length + 1) t.data with h | h
  · left
    show (⟨fmRun t.data⟩ : String) = t
    rw [fmRun, h]
  · right
    show (⟨fmRun t.data⟩ : String).length < t.length
    exact h

theorem matchTailF_congr : ∀ (f1 f2 : Nat) (s : List Char), s.length < f1 → s.length < f2 →
    matchTailF f1 s = matchTailF f2 s := by
  intro f1
  induction f1 with
  | zero => intro f2 s h1 h2; omega
  | succ f1 ih =>
    intro f2 s h1 h2
    cases f2 with
    | zero => omega
    | succ f2 =>
      rw [matchTailF, matchTailF]
      cases hc : closeMatch s with
      | some r => rfl
      | none =>
        cases hd : dropLine s with
        | some z =>
          have := dropLine_length s z hd
          exact ih f2 z (by omega) (by omega)
        | none => rfl

theorem matchTail_of_close (s r : List Char) (h : closeMatch s = some r) :
    matchTail s = some r := by
  rw [matchTail, matchTailF, h]

theorem matchTail_step (s z : List Char) (h1 : closeMatch s = none)
    (h2 : dropLine s = some z) : matchTail s = matchTail z := by
  rw [matchTail, matchTailF, h1, h2]
  have := dropLine_length s z h2
  exact matchTailF_congr s.length (z.length + 1) z (by omega) (by omega)

theorem isLineTerm_false_ne_nl (c : Char) (h : isLineTerm c = false) : ¬ c = '\n' := by
  intro hc
  subst hc
  simp [isLineTerm] at h

theorem wsNlSplits_head_not_ws (r : List Char) (h : headNotWs r = true) :
    wsNlSplits r = [] := by
  cases r with
  | nil => rfl
  | cons c cs =>
    rw [headNotWs] at h
    rw [Bool.not_eq_true'] at h
    rw [wsNlSplits, if_neg (by simp [h])]

theorem wsNlSplits_nl_cons (r : List Char) :
    wsNlSplits ('\n' :: r) = wsNlSplits r ++ [r] := by
  rw [wsNlSplits, if_pos (by decide), if_pos rfl]

theorem wsNlSplits_append_no_nl : ∀ (xs z : List Char),
    (∀ c ∈ xs, isLineTerm c = false) → xs.all isJsWs = false →
    wsNlSplits (xs ++ z) = [] := by
  intro xs
  induction xs with
  | nil => intro z _ hall; simp at hall
  | cons x xs ih =>
    intro z hterm hall
    rw [List.all_cons] at hall
    rw [List.cons_append, wsNlSplits]
    by_cases hx : isJsWs x
    · rw [if_pos (by simp [hx])]
      rw [hx] at hall
      simp only [Bool.true_and] at hall
      rw [ih z (fun c hc => hterm c (List.mem_cons_of_mem x hc)) hall]
      rw [if_neg (isLineTerm_false_ne_nl x (hterm x (List.mem_cons_self x xs)))]
      rfl
    · rw [if_neg (by simp [hx])]

theorem wsNlSplits_append_ws_nl : ∀ (xs z : List Char),
    (∀ c ∈ xs, isLineTerm c = false) → xs.all isJsWs = true →
    wsNlSplits (xs ++ '\n' :: z) = wsNlSplits z ++ [z] := by
  intro xs
  induction xs with
  | nil => intro z _ _; rw [List.nil_append, wsNlSplits_nl_cons]
  | cons x xs ih =>
    intro z hterm hall
    rw [List.all_cons, Bool.and_eq_true] at hall
    rw [List.cons_append, wsNlSplits, if_pos (by simp [hall.1])]
    rw [ih z (fun c hc => hterm c (List.mem_cons_of_mem x hc)) hall.2]
    rw [if_neg (isLineTerm_false_ne_nl x (hterm x (List.mem_cons_self x xs)))]
    rw [List.append_nil]

theorem closeMatch_dashes (xs : List Char) :
    closeMatch ('-' :: '-' :: '-' :: xs) = (wsNlSplits xs).head? := by
  rw [closeMatch, if_pos ⟨rfl, rfl, rfl⟩]

theorem goodLine_no_term (b : List Char) (hb : goodLine b = true) :
    ∀ c ∈ b, isLineTerm c = false := by
  rw [goodLine] at hb
  simp only [Bool.and_eq_true] at hb
  intro c hc
  have h := List.all_eq_true.mp hb.1.2 c hc
  simpa using h

theorem goodLine_not_all_ws (b : List Char) (hb : goodLine b = true) :
    b.all isJsWs = false := by
  rw [goodLine] at hb
  simp only [Bool.and_eq_true] at hb
  obtain ⟨c, hc, hnc⟩ := List.any_eq_true.mp hb.1.1
  cases hall : b.all isJsWs
  · rfl
  · have := List.all_eq_true.mp hall c hc
    simp [this] at hnc

theorem closeMatch_goodLine_none (b z : List Char) (hb : goodLine b = true) :
    closeMatch (b ++ '\n' :: z) = none := by
  have hterm := goodLine_no_term b hb
  rcases b with _ | ⟨c1, _ | ⟨c2, _ | ⟨c3, b4⟩⟩⟩
  · rw [goodLine] at hb
    simp at hb
  · cases z with
    | nil => rfl
    | cons z1 z2 =>
      rw [List.cons_append, List.nil_append, closeMatch]
      rw [if_neg]
      intro hd
      exact absurd hd.2.1 (by decide)
  · rw [List.cons_append, List.cons_append, List.nil_append, closeMatch]
    rw [if_neg]
    intro hd
    exact absurd hd.2.2 (by decide)
  · by_cases hd : c1 = '-' ∧ c2 = '-' ∧ c3 = '-'
    · obtain ⟨h1, h2, h3⟩ := hd
      subst h1; subst h2; subst h3
      rw [List.cons_append, List.cons_append, List.cons_append, closeMatch_dashes]
      have hall : b4.all isJsWs = false := by
        have hclose : isCloseLine ('-' :: '-' :: '-' :: b4) = false := by
          rw [goodLine] at hb
          simp only [Bool.and_eq_true] at hb
          have := hb.2
          rwa [Bool.not_eq_true'] at this
        rw [isCloseLine] at hclose
        simpa using hclose
      rw [wsNlSplits_append_no_nl b4 ('\n' :: z)
        (fun c hc => hterm c (by simp [hc])) hall]
      rfl
    · rw [List.cons_append, List.cons_append, List.cons_append, closeMatch]
      rw [if_neg hd]

theorem dropLine_line (b z : List Char) (hb : ∀ c ∈ b, isLineTerm c = false) :
    dropLine (b ++ '\n' :: z) = some z := by
  induction b with
  | nil =>
    rw [List.nil_append, dropLine, if_pos (by decide), if_pos rfl]
  | cons c cs ih =>
    rw [List.cons_append, dropLine,
      if_neg (by simp [hb c (List.mem_cons_self c cs)])]
    exact ih (fun x hx => hb x (List.mem_cons_of_mem c hx))

theorem matchTail_lines : ∀ (bs : List (List Char)), bs.all goodLine = true →
    ∀ r : List Char, headNotWs r = true →
    matchTail (linesJoin bs ++ '-' :: '-' :: '-' :: '\n' :: r) = some r := by
  intro bs
  induction bs with
  | nil =>
    intro _ r hr
    rw [linesJoin, List.nil_append]
    apply matchTail_of_close
    rw [closeMatch_dashes, wsNlSplits_nl_cons, wsNlSplits_head_not_ws r hr]
    rfl
  | cons b bs ih =>
    intro hall r hr
    rw [List.all_cons, Bool.and_eq_true] at hall
    rw [linesJoin, List.append_assoc, List.cons_append]
    rw [matchTail_step _ _
      (closeMatch_goodLine_none b _ hall.1)
      (dropLine_line b _ (goodLine_no_term b hall.1))]
    exact ih hall.2 r hr

theorem matchFrontAt_lines (bs : List (List Char)) (r : List Char)
    (hbs : bs.all goodLine = true) (hr : headNotWs r = true) :
    matchFrontAt ('-' :: '-' :: '-' :: '\n' ::
      (linesJoin bs ++ '-' :: '-' :: '-' :: '\n' :: r)) = some r := by
  rw [matchFrontAt, if_pos ⟨rfl, rfl, rfl⟩]
  have hQ : wsNlSplits (linesJoin bs ++ '-' :: '-' :: '-' :: '\n' :: r) = [] := by
    cases bs with
    | nil =>
      rw [linesJoin, List.nil_append, wsNlSplits, if_neg (by decide)]
    | cons b bs =>
      rw [List.all_cons, Bool.and_eq_true] at hbs
      rw [linesJoin, List.append_assoc, List.cons_append]
      exact wsNlSplits_append_no_nl b _ (goodLine_no_term b hbs.1)
        (goodLine_not_all_ws b hbs.1)
  rw [wsNlSplits_nl_cons, hQ, List.nil_append, firstSome,
    matchTail_lines bs hbs r hr]

/-- Claim C6 amended: when the text starts with a `---` line, followed
by body lines that each contain a non-whitespace character, contain no
line terminator, and are not themselves `---` delimiter lines, followed
by a closing `---` line, and the remainder after the closing newline
does not begin with whitespace, `removeFrontMatter` removes exactly the
block through the closing newline and returns the remainder. (When the
remainder does begin with whitespace, the closing `---\s*\n` of the
regex additionally absorbs that whitespace through its last newline, as
the counterexample shows.) -/
theorem removeFrontMatter_leading_block (bs : List (List Char)) (r : List Char)
    (hbs : bs.all goodLine = true) (hr : headNotWs r = true) :
    removeFrontMatter ⟨'-' :: '-' :: '-' :: '\n' ::
      (linesJoin bs ++ '-' :: '-' :: '-' :: '\n' :: r)⟩ = ⟨r⟩ := by
  have h : fmRun ('-' :: '-' :: '-' :: '\n' ::
      (linesJoin bs ++ '-' :: '-' :: '-' :: '\n' :: r)) = r := by
    rw [fmRun, fmRunF, matchFrontAt_lines bs r hbs hr]
  exact congrArg String.mk h

/-- Witness for the amended claim C6 at the concrete example of the
spec: the frontmatter block of "---, title: x, ---" followed by "body"
is removed in full. -/
theorem removeFrontMatter_leading_block_witness :
    removeFrontMatter ⟨'-' :: '-' :: '-' :: '\n' ::
      (linesJoin [['t', 'i', 't', 'l', 'e', ':', ' ', 'x']] ++
        '-' :: '-' :: '-' :: '\n' :: ['b', 'o', 'd', 'y'])⟩ =
      ⟨['b', 'o', 'd', 'y']⟩ :=
  removeFrontMatter_leading_block [['t', 'i', 't', 'l', 'e', ':', ' ', 'x']]
    ['b', 'o', 'd', 'y'] (by decide) (by decide)
